import Mathlib

/-!
Verification development for the covnet trace-normalization and
spectral-whitening core (`covnet/data.py`).

The embedding models sample values and timestamps as exact rationals (`ℚ`):
a trace is a list of samples together with a start time (seconds) and a
sampling rate (Hz), and a stream is a list of traces.  The obspy and scipy
library routines that `data.py` delegates to (`Stream.trim`/`Trace.trim`,
`scipy.signal.stft`/`istft`, `numpy.median`, `statsmodels.robust.mad`,
`matplotlib.dates.date2num`) are embedded from their library sources at the
level of the quantities the covnet code observes: sample sequences, start
times, lengths, window/frequency axes, and the parameter records passed to
the transforms.  Complex spectral values themselves are observed by no
covnet-level property below (every property is about shapes, lengths,
axes, times and the real-valued normalizations), so the spectrum of a
trace is carried as its shape, and the whitened data vector is carried by
its length (its numeric content is irrelevant to, and unobserved by, the
recut bookkeeping that follows it).
-/

set_option autoImplicit false
set_option maxRecDepth 40000

/- Batteries marks the rational-arithmetic primitives `@[irreducible]`,
which blocks `decide`/`rfl` evaluation of the concrete counterexamples and
witnesses below; restore their reducibility for this file. -/
attribute [local semireducible] Rat.add Rat.mul Rat.inv Rat.sub

deriving instance DecidableEq for Except

namespace Covnet

/-- Python `int()` conversion of a real number: truncation toward zero
(`int(2.7) = 2`, `int(-2.7) = -2`). -/
def pyInt (q : ℚ) : ℤ :=
  if 0 ≤ q then ⌊q⌋ else ⌈q⌉

/-- obspy `compatibility.round_away`: round to the nearest integer, ties
rounded away from zero (`round_away(0.5) = 1`, `round_away(-0.5) = -1`).
Mirrors the branch structure of the Python source: fractional part below a
half rounds down, above a half rounds up, and the exact tie takes
`copysign(ceil(abs(q)), q)`. -/
def roundAway (q : ℚ) : ℤ :=
  if q - ⌊q⌋ < 1/2 then ⌊q⌋
  else if (⌈q⌉ : ℚ) - q < 1/2 then ⌈q⌉
  else if 0 ≤ q then ⌈q⌉ else ⌊q⌋

/-- `matplotlib.dates.date2num` on a timestamp of `t` seconds: days in
matplotlib's date-float scale.  `date2num` is affine in `t` with slope
`1/86400`; its epoch offset cancels in every covnet computation below
(only differences of date floats, or equalities between them, are ever
observed), so the epoch is taken as day 0. -/
def dateFloat (t : ℚ) : ℚ := t / 86400

/-- A seismic trace: obspy's `Trace` as observed by covnet — the sample
vector `data`, the header's `starttime` (seconds) and `sampling_rate` (Hz). -/
structure Trace where
  data : List ℚ
  starttime : ℚ
  sampling_rate : ℚ
deriving DecidableEq

/-- obspy `trace.stats.npts`: the number of samples. -/
def Trace.npts (tr : Trace) : ℕ := tr.data.length

/-- obspy `trace.stats.endtime = starttime + (npts - 1) / sampling_rate`
(for an empty trace this is one sample period before the start, exactly as
in obspy). -/
def Trace.endtime (tr : Trace) : ℚ :=
  tr.starttime + ((tr.npts : ℚ) - 1) / tr.sampling_rate

/-- The covnet `Stream`: an ordered collection of traces
(`class Stream(obspy.core.stream.Stream)`). -/
structure Strm where
  traces : List Trace
deriving DecidableEq

/-- The Python exceptions observed by the modelled operations.
`indexError` is raised by `self[0]` / `times()[-1]` style accesses,
`valueError` by obspy/scipy argument validation, and `unsupportedMethod`
stands for the `UnboundLocalError` raised when `Stream.whiten` reaches
`whiten_method(...)` with a method string that bound no shaping function
(the spec's `UnsupportedMethod`). -/
inductive PyErr where
  | indexError
  | valueError
  | unsupportedMethod
deriving DecidableEq

/-! ### obspy trim model

`Stream.cut` in `data.py` wraps `obspy.Stream.trim(starttime, endtime,
pad=True, fill_value=0)`.  The definitions below embed obspy's
`Trace._ltrim`, `Trace._rtrim`, `Trace.trim` and `Stream.trim` (with
`nearest_sample=True`, the default used by covnet) over exact rational
timestamps. -/

/-- obspy `Trace._ltrim(starttime, pad=True, nearest_sample=True,
fill_value)`: cut or pad the left end.  `delta` is the requested start
expressed in samples from the current start, rounded with `round_away`;
when it is negative and `pad` is set, obspy recomputes it against a start
shifted `|delta| + 10` samples earlier (the source comment: "due to
rounding and npts starttime must always be right of self.stats.starttime").
The trace's start time always moves by `delta` sample periods; the data is
padded on the left (`delta < 0`), emptied (requested start beyond the end)
or dropped from the left (`delta > 0`). -/
def ltrimDelta (d : ℚ) : ℤ :=
  let delta0 : ℤ := roundAway d
  if delta0 < 0 then
    let nptsOff : ℤ := -delta0 + 10
    roundAway (d + (nptsOff : ℚ)) - nptsOff
  else delta0

/-- The body of obspy `Trace._ltrim` with `pad=True`: shift the start by
`ltrimDelta` sample periods and pad, empty or drop the data accordingly. -/
def ltrimPad (fill s : ℚ) (tr : Trace) : Trace :=
  let d : ℚ := (s - tr.starttime) * tr.sampling_rate
  let delta : ℤ := ltrimDelta d
  let st' : ℚ := tr.starttime + (delta : ℚ) / tr.sampling_rate
  if delta = 0 then { tr with starttime := st' }
  else if delta < 0 then
    { data := List.replicate delta.natAbs fill ++ tr.data
      starttime := st', sampling_rate := tr.sampling_rate }
  else if st' + ((tr.npts : ℚ) - 1) / tr.sampling_rate < s then
    { data := [], starttime := st', sampling_rate := tr.sampling_rate }
  else
    { data := tr.data.drop delta.toNat
      starttime := st', sampling_rate := tr.sampling_rate }

/-- obspy `Trace._rtrim(endtime, pad=True, nearest_sample=True,
fill_value)`: cut or pad the right end.  `delta` is the requested end in
samples past the current end (`round_away((endtime - starttime) * fs) -
npts + 1`); positive `delta` appends fill samples, a requested end before
the start empties the trace, and otherwise `|delta|` samples are cut from
the right (with obspy's special case `total = 1` when the requested end
equals the start). -/
def rtrimPad (fill e : ℚ) (tr : Trace) : Trace :=
  let delta : ℤ := roundAway ((e - tr.starttime) * tr.sampling_rate) - (tr.npts : ℤ) + 1
  if delta = 0 then tr
  else if 0 < delta then
    { tr with data := tr.data ++ List.replicate delta.toNat fill }
  else if e < tr.starttime then
    { data := [], starttime := tr.endtime + (delta : ℚ) / tr.sampling_rate
      sampling_rate := tr.sampling_rate }
  else
    let total : ℤ := if e = tr.starttime then 1 else (tr.npts : ℤ) + delta
    { tr with data := tr.data.take total.toNat }

/-- obspy `Trace.trim(starttime, endtime, pad=True, fill_value)`: left trim
followed by right trim.  (The `starttime > endtime` `ValueError` check at
its head is performed in `Strm.cut` below, where — as in obspy — it fires
for the first trace of the loop, before any trace has been modified.) -/
def Trace.trim (fill s e : ℚ) (tr : Trace) : Trace :=
  rtrimPad fill e (ltrimPad fill s tr)

/-- covnet `Stream.cut(starttime, endtime, pad=True, fill_value)`, i.e.
obspy `Stream.trim(..., pad=True, nearest_sample=True)`: an empty stream is
returned unchanged (`if not self: return self`); otherwise the requested
bounds are first snapped to sample points of the FIRST trace
(`round_away` against `traces[0]`'s start and end), every trace is trimmed
to the snapped window, and traces left empty are removed
(`keep_empty_traces=False`).  If the snapped start exceeds the snapped end,
`Trace.trim` raises `ValueError` — at the first trace, before any
mutation, so the error leaves the stream unchanged. -/
def Strm.cut (s e fill : ℚ) (st : Strm) : Except PyErr Strm :=
  match st.traces with
  | [] => .ok st
  | t0 :: _ =>
    let s' : ℚ :=
      t0.starttime + (roundAway ((s - t0.starttime) * t0.sampling_rate) : ℚ) / t0.sampling_rate
    let e' : ℚ :=
      t0.endtime + (roundAway ((e - t0.endtime) * t0.sampling_rate) : ℚ) / t0.sampling_rate
    if e' < s' then .error .valueError
    else .ok ⟨(st.traces.map (Trace.trim fill s' e')).filter (fun tr => tr.npts ≠ 0)⟩

/-! ### Normalization operations (`binarize`, `demad`) -/

/-- `Stream.binarize`, per sample: `x / (abs(x) + epsilon)`. -/
def binarizeSample (epsilon x : ℚ) : ℚ := x / (|x| + epsilon)

/-- The default regularization `epsilon=1e-10` of `Stream.binarize`. -/
def binarizeEps : ℚ := 1 / 10000000000

/-- `Stream.binarize` on one trace:
`trace.data = trace.data / (np.abs(trace.data) + epsilon)`. -/
def Trace.binarize (epsilon : ℚ) (tr : Trace) : Trace :=
  { tr with data := tr.data.map (binarizeSample epsilon) }

/-- `Stream.binarize(epsilon)`: binarize every trace in place. -/
def Strm.binarize (epsilon : ℚ) (st : Strm) : Strm :=
  ⟨st.traces.map (Trace.binarize epsilon)⟩

/-- `numpy.median`: sort, then take the middle element (odd length) or the
mean of the two middle elements (even length).  numpy returns `nan` on an
empty array; the empty case is mapped to `0` here and is excluded by a
positivity or nonemptiness hypothesis wherever it matters. -/
def npMedian (l : List ℚ) : ℚ :=
  let s := l.insertionSort (· ≤ ·)
  let n := l.length
  if n = 0 then 0
  else if n % 2 = 1 then s.getD (n / 2) 0
  else (s.getD (n / 2 - 1) 0 + s.getD (n / 2) 0) / 2

/-- `statsmodels.robust.mad`'s default scale constant
`c = Gaussian.ppf(3/4) = 0.6744897501960817` (the float64 value printed by
statsmodels; only its positivity is ever used). -/
def madConst : ℚ := 6744897501960817 / 10000000000000000

/-- `statsmodels.robust.mad(a)`: `np.median(np.abs(a - np.median(a))) / c`. -/
def mad (l : List ℚ) : ℚ :=
  npMedian (l.map (fun x => |x - npMedian l|)) / madConst

/-- `Stream.demad` on one trace: divide by the MAD when it is positive,
else by `mad + 1e-5`. -/
def Trace.demad (tr : Trace) : Trace :=
  let m := mad tr.data
  if 0 < m then { tr with data := tr.data.map (fun x => x / m) }
  else { tr with data := tr.data.map (fun x => x / (m + 1/100000)) }

/-- `Stream.demad()`: MAD-normalize every trace in place. -/
def Strm.demad (st : Strm) : Strm := ⟨st.traces.map Trace.demad⟩

/-- Sample `n` of trace `i` of a stream, when both exist. -/
def Strm.sampleAt (st : Strm) (i n : ℕ) : Option ℚ :=
  match st.traces[i]? with
  | some tr => tr.data[n]?
  | none => none

/-! ### scipy short-time Fourier transform model

`scipy.signal.stft` is embedded at the level the covnet code observes: the
keyword-argument record each call resolves to, the frequency axis, the
window-time axis and the spectrum shape.  The complex spectral values are
observed by none of the covnet-level properties below and are not
modelled. -/

/-- The keyword arguments of a `scipy.signal.stft` call.  `noverlap = none`
and `nfft = none` stand for Python `None` (resolved to `nperseg // 2` and
`nperseg` respectively inside scipy). -/
structure StftParams where
  fs : ℚ
  window : String
  nperseg : ℤ
  noverlap : Option ℤ
  nfft : Option ℤ
  return_onesided : Bool
  boundary : Option String
  padded : Bool
deriving DecidableEq

/-- scipy's own defaults for `stft`: `fs=1.0, window='hann', nperseg=256,
noverlap=None, nfft=None, return_onesided=True, boundary='zeros',
padded=True`. -/
def scipyStftDefaults : StftParams :=
  { fs := 1, window := "hann", nperseg := 256, noverlap := none, nfft := none,
    return_onesided := true, boundary := some "zeros", padded := true }

/-- `numpy.fft.fftfreq(n, d)`: two-sided frequency axis
`[0, 1, ..., ⌈n/2⌉-1, -⌊n/2⌋, ..., -1] / (n*d)`. -/
def npFftfreq (n : ℕ) (d : ℚ) : List ℚ :=
  (List.range n).map (fun k : ℕ =>
    (((if (k : ℤ) < ((n : ℤ) + 1) / 2 then (k : ℤ) else (k : ℤ) - n) : ℤ) : ℚ) / ((n : ℚ) * d))

/-- `numpy.fft.rfftfreq(n, d)`: one-sided frequency axis
`[0, 1, ..., n/2] / (n*d)`. -/
def npRfftfreq (n : ℕ) (d : ℚ) : List ℚ :=
  (List.range (n / 2 + 1)).map (fun k : ℕ => (k : ℚ) / ((n : ℚ) * d))

/-- What a `scipy.signal.stft` call returns, as observed by covnet: the
frequency axis, the window-time axis, and the number of windows (the
spectrum has shape `(freqs.length, nseg)`; its complex entries are not
modelled). -/
structure StftResult where
  freqs : List ℚ
  segTimes : List ℚ
  nseg : ℕ
deriving DecidableEq

/-- `scipy.signal.stft(x, **P)` on an input of `n` samples, following
`scipy.signal._spectral_helper`:
* `nperseg < 1` is rejected; `nperseg > n` is clamped to `n`
  (`_triage_segments`, with a warning);
* `noverlap` defaults to `nperseg // 2` and must be less than `nperseg`;
  `nfft` defaults to `nperseg` and must not be smaller;
* with `boundary` set, the input is extended by `nperseg // 2` zeros at
  both ends; with `padded` set, it is zero-padded up to a whole number of
  window steps (`nadd = (-(len - nperseg)) % nstep % nperseg`);
* the number of windows is `(total - noverlap) // nstep` for
  `nstep = nperseg - noverlap`, i.e. `(total - nperseg) // nstep + 1`;
* the frequency axis is two-sided `fftfreq(nfft, 1/fs)` or one-sided
  `rfftfreq(nfft, 1/fs)`; the window-time axis is
  `(nperseg/2 + i*nstep)/fs`, shifted back by `(nperseg/2)/fs` when a
  boundary extension was applied. -/
def scipyStft (n : ℕ) (P : StftParams) : Except PyErr StftResult :=
  if P.nperseg < 1 then .error .valueError
  else
    let p : ℕ := min P.nperseg.toNat n
    let nover : ℤ := P.noverlap.getD ((p : ℤ) / 2)
    if (p : ℤ) ≤ nover then .error .valueError
    else
      let nfft : ℤ := P.nfft.getD (p : ℤ)
      if nfft < (p : ℤ) then .error .valueError
      else
        let nstep : ℤ := (p : ℤ) - nover
        let nExt : ℤ := if P.boundary.isSome then (n : ℤ) + 2 * ((p / 2 : ℕ) : ℤ) else (n : ℤ)
        let nAdd : ℤ := if P.padded then ((-(nExt - (p : ℤ))).emod nstep).emod (p : ℤ) else 0
        let total : ℤ := nExt + nAdd
        let nseg : ℕ := ((total - (p : ℤ)).ediv nstep + 1).toNat
        let freqs := if P.return_onesided then npRfftfreq nfft.toNat (1 / P.fs)
                     else npFftfreq nfft.toNat (1 / P.fs)
        let segTimes := (List.range nseg).map
          (fun i : ℕ => ((p : ℚ) / 2 + (i : ℚ) * (nstep : ℚ)) / P.fs -
            (if P.boundary.isSome then ((p : ℚ) / 2) / P.fs else 0))
        .ok ⟨freqs, segTimes, nseg⟩

/-- The least exponent `k` with `n ≤ 2 ^ k` — that is, `⌈log2 n⌉` for
`n ≥ 1` (searched over `0..n`, which always contains such a `k` since
`n ≤ 2 ^ n`). -/
def ceilLog2 (n : ℕ) : ℕ :=
  ((List.range (n + 1)).filter (fun k => n ≤ 2 ^ k)).headD 0

/-- `int(2**np.ceil(np.log2(n)))` as computed in `Stream.stft`'s `nfft`
default: the least power of two at or above `n` (for `n ≤ 0`, numpy's
`log2` yields `-inf` and `2**-inf = 0.0`, so the result is `0`). -/
def nextPow2 (n : ℤ) : ℤ :=
  if n ≤ 0 then 0 else 2 ^ ceilLog2 n.toNat

/-- The keyword arguments `Stream.stft` resolves before its per-trace
loop: `fs` from the first trace, `nperseg = int(seg*fs)`,
`noverlap = int(nperseg*step)`, `nfft` the next power of two,
`window='hanning'`, `return_onesided=False`, `boundary=None`,
`padded=False`. -/
def Strm.stftParams (t0 : Trace) (seg step : ℚ) : StftParams :=
  let fs := t0.sampling_rate
  let p : ℤ := pyInt (seg * fs)
  { fs := fs, window := "hanning", nperseg := p,
    noverlap := some (pyInt ((p : ℚ) * step)),
    nfft := some (nextPow2 p),
    return_onesided := false, boundary := none, padded := false }

/-- covnet `Stream.stft(segment_duration_sec, step=0.5)`: resolve the
keyword arguments from the first trace (raising `IndexError` on an empty
stream), run `scipy.signal.stft` on every trace with those arguments
(keeping the loop's last `frequencies`/`times`), stack the spectra, turn
the window starts into date floats
(`times -= times[0]; times /= 86400; times += date2num(start0)`), and
append `self.times[-1] + (self.times[2] - self.times[0]) / 2` — built from
the first trace's SAMPLE-time axis, which needs at least 3 samples — as an
extra final entry.  Returns `(times, frequencies, spectra)`; each entry of
`spectra` is the `(n_frequencies, n_windows)` shape of one trace's
spectrum. -/
def Strm.stft (seg step : ℚ) (st : Strm) : Except PyErr (List ℚ × List ℚ × List (ℕ × ℕ)) :=
  match st.traces with
  | [] => .error .indexError
  | t0 :: _ =>
    let P := Strm.stftParams t0 seg step
    match st.traces.mapM (fun tr => scipyStft tr.npts P) with
    | .error e => .error e
    | .ok results =>
      match results.getLast? with
      | none => .error .indexError
      | some rLast =>
        let spectra := results.map (fun r => (r.freqs.length, r.nseg))
        let t0f := dateFloat t0.starttime
        let wtimes := rLast.segTimes.map
          (fun t => (t - rLast.segTimes.getD 0 0) / (24 * 3600) + t0f)
        if t0.npts < 3 then .error .indexError
        else
          let sampleTime : ℕ → ℚ := fun k => dateFloat ((k : ℚ) / t0.sampling_rate) + t0f
          let tEnd := sampleTime (t0.npts - 1) + (sampleTime 2 - sampleTime 0) / 2
          .ok (wtimes ++ [tEnd], rLast.freqs, spectra)

/-! ### Whitening pipeline (`Stream.whiten`) -/

/-- The two spectral shaping functions `Stream.whiten` can bind
(`maths.phase` for `'onebit'`, `maths.detrend_spectrum` for `'smooth'`).
The `covnet.maths` module is not among the sources under review; modelled
from the spec: one-bit shaping replaces each complex bin by its
unit-modulus phase factor, smooth shaping divides each bin by a smoothed
modulus — both element-wise on the spectrum, hence shape-preserving, which
is the only fact the pipeline observes about them. -/
inductive ShapingMethod where
  | phase
  | detrendSpectrum
deriving DecidableEq

/-- The `scipy.signal.stft` keyword arguments used INSIDE `Stream.whiten`:
`stft(data, nperseg=fft_size)` — every other argument is scipy's own
default (`boundary='zeros'`, `padded=True`, `return_onesided=True`). -/
def whitenStftParams (fftSize : ℤ) : StftParams :=
  { scipyStftDefaults with nperseg := fftSize }

/-- Output length of `scipy.signal.istft(Zxx, nperseg=p)` for a spectrum
of `nseg` windows: overlap-add length `p + (nseg - 1) * (p - p // 2)`
(default `noverlap = p // 2`), trimmed by `p // 2` samples at each end
(default `boundary=True`). -/
def scipyIstftLen (nseg p : ℕ) : ℕ :=
  p + (nseg - 1) * (p - p / 2) - 2 * (p / 2)

/-- One iteration of `Stream.whiten`'s loop, in the order of the source:
`stft(data, nperseg=fft_size)` (which may itself reject the arguments),
then the call of `whiten_method` — an `UnboundLocalError` when the method
string bound no shaping function, modelled as `unsupportedMethod` — then
`istft(data_fft, nperseg=fft_size)`, which raises a `ValueError` when the
forward call had clamped `nperseg` below `fft_size` (spectrum shape
mismatch).  The shaping is element-wise, so the reconstructed data is
carried by its length (the recut that follows observes nothing else). -/
def whitenTrace (fftSize : ℤ) (shaping : Option ShapingMethod) (tr : Trace) :
    Except PyErr Trace :=
  match scipyStft tr.npts (whitenStftParams fftSize) with
  | .error e => .error e
  | .ok r =>
    match shaping with
    | none => .error .unsupportedMethod
    | some _ =>
      if tr.npts < fftSize.toNat then .error .valueError
      else .ok { tr with data := List.replicate (scipyIstftLen r.nseg fftSize.toNat) 0 }

/-- `Stream.whiten`'s per-trace loop: traces are reassigned in place one
by one; an exception aborts the loop, leaving the current and the
remaining traces untouched. -/
def whitenLoop (fftSize : ℤ) (shaping : Option ShapingMethod) :
    List Trace → List Trace × Option PyErr
  | [] => ([], none)
  | tr :: rest =>
    match whitenTrace fftSize shaping tr with
    | .error e => (tr :: rest, some e)
    | .ok tr' =>
      let res := whitenLoop fftSize shaping rest
      (tr' :: res.1, res.2)

/-- covnet `Stream.whiten(segment_duration_sec, method='onebit',
smooth=11)`: bind the shaping function (no `else` branch — an unknown
method leaves `whiten_method` unbound), read `fft_size =
int(segment_duration_sec * fs0)` and `duration = self[0].times()[-1]` from
the first trace (`IndexError` on an empty stream, or on an empty first
trace), run the loop, then re-cut the whole stream to
`[start0, start0 + duration]` with `pad=True, fill_value=0`.  The result
is the stream state together with the exception, if one was raised (the
`smooth` window length is only passed through to the shaping function,
whose values are not modelled). -/
def Strm.whitenRun (seg : ℚ) (method : String) (smooth : ℕ) (st : Strm) :
    Strm × Option PyErr :=
  let shaping : Option ShapingMethod :=
    if method = "onebit" then some .phase
    else if method = "smooth" then some .detrendSpectrum
    else none
  match st.traces with
  | [] => (st, some .indexError)
  | t0 :: _ =>
    if t0.npts = 0 then (st, some .indexError)
    else
      let fftSize : ℤ := pyInt (seg * t0.sampling_rate)
      let duration : ℚ := ((t0.npts : ℚ) - 1) / t0.sampling_rate
      match whitenLoop fftSize shaping st.traces with
      | (done, some e) => (⟨done⟩, some e)
      | (done, none) =>
        match Strm.cut t0.starttime (t0.starttime + duration) 0 ⟨done⟩ with
        | .error e => (⟨done⟩, some e)
        | .ok st' => (st', none)

/-! ## Rounding lemmas -/

theorem roundAway_eq_floor_or_ceil (q : ℚ) : roundAway q = ⌊q⌋ ∨ roundAway q = ⌈q⌉ := by
  unfold roundAway
  split_ifs <;> simp

theorem roundAway_intCast (k : ℤ) : roundAway (k : ℚ) = k := by
  unfold roundAway
  rw [if_pos]
  · exact Int.floor_intCast k
  · rw [Int.floor_intCast]
    norm_num

theorem roundAway_nonneg {q : ℚ} (hq : 0 ≤ q) : 0 ≤ roundAway q := by
  rcases roundAway_eq_floor_or_ceil q with h | h <;> rw [h]
  · exact Int.floor_nonneg.mpr hq
  · exact Int.ceil_nonneg (by exact_mod_cast hq)

theorem roundAway_nonneg_eq {q : ℚ} (hq : 0 ≤ q) : roundAway q = ⌊q + 1/2⌋ := by
  unfold roundAway
  split_ifs with h1 h2
  · symm
    rw [Int.floor_eq_iff]
    refine ⟨?_, ?_⟩
    · have := Int.floor_le q
      linarith
    · push_cast
      linarith
  · symm
    rw [Int.floor_eq_iff]
    refine ⟨by push_cast; linarith, ?_⟩
    have := Int.le_ceil q
    push_cast
    linarith
  · -- exact tie, `0 ≤ q`: the result is `⌈q⌉ = ⌊q⌋ + 1 = ⌊q + 1/2⌋`
    push_neg at h1 h2
    have hc : ⌈q⌉ ≤ ⌊q⌋ + 1 := Int.ceil_le_floor_add_one q
    have hfr : q - ⌊q⌋ = 1/2 := by
      have hc' : (⌈q⌉ : ℚ) ≤ (⌊q⌋ : ℚ) + 1 := by exact_mod_cast hc
      linarith
    have hne : ⌊q⌋ < ⌈q⌉ := by
      rcases lt_or_eq_of_le (Int.floor_le_ceil q) with h | h
      · exact h
      · exfalso
        have h' : (⌊q⌋ : ℚ) = (⌈q⌉ : ℚ) := by exact_mod_cast h
        have := Int.le_ceil q
        linarith
    have hceil : ⌈q⌉ = ⌊q⌋ + 1 := le_antisymm hc (by omega)
    rw [hceil]
    symm
    rw [Int.floor_eq_iff]
    push_cast
    constructor <;> linarith

theorem ltrimDelta_def (d : ℚ) : ltrimDelta d =
    if roundAway d < 0 then
      roundAway (d + ((-roundAway d + 10 : ℤ) : ℚ)) - (-roundAway d + 10)
    else roundAway d := rfl

theorem ltrimDelta_eq (d : ℚ) : ltrimDelta d = ⌊d + 1/2⌋ := by
  rw [ltrimDelta_def]
  by_cases h : roundAway d < 0
  · rw [if_pos h]
    have hub : (roundAway d : ℚ) ≤ d + 1 := by
      rcases roundAway_eq_floor_or_ceil d with hra | hra <;> rw [hra] <;> push_cast
      · linarith [Int.floor_le d]
      · linarith [Int.ceil_lt_add_one d]
    have hnn : (0 : ℚ) ≤ d + ((-roundAway d + 10 : ℤ) : ℚ) := by
      push_cast
      linarith
    rw [roundAway_nonneg_eq hnn]
    have harg : d + ((-roundAway d + 10 : ℤ) : ℚ) + 1/2 =
        (d + 1/2) + ((-roundAway d + 10 : ℤ) : ℚ) := by
      ring
    rw [harg, Int.floor_add_int]
    ring
  · rw [if_neg h]
    push_neg at h
    by_cases hq : 0 ≤ d
    · exact roundAway_nonneg_eq hq
    · -- `d < 0` with a non-negative rounding: `d ∈ (-1/2, 0)`, both sides are `0`
      push_neg at hq
      have hfneg : ⌊d⌋ < 0 := Int.floor_lt.mpr (by exact_mod_cast hq)
      have hra : roundAway d = ⌈d⌉ := by
        rcases roundAway_eq_floor_or_ceil d with h' | h'
        · omega
        · exact h'
      have hc0 : ⌈d⌉ = 0 := by
        have h1 : ⌈d⌉ ≤ 0 := Int.ceil_le.mpr (by exact_mod_cast hq.le)
        rw [hra] at h
        omega
      have hgt : -(1/2 : ℚ) < d := by
        -- the ceiling branch of `roundAway` was taken, so `⌈d⌉ - d < 1/2`
        unfold roundAway at hra
        split_ifs at hra with h1 h2
        · exfalso
          omega
        · have h2' : (⌈d⌉ : ℚ) - d < 1/2 := h2
          rw [hc0] at h2'
          push_cast at h2'
          linarith
        · exfalso
          exact absurd hq (not_lt.mpr (by assumption))
        · exfalso
          omega
      rw [hra, hc0]
      symm
      rw [Int.floor_eq_iff]
      push_cast
      constructor <;> linarith

theorem roundAway_eq_zero {q : ℚ} (hl : -(1/2) < q) (hu : q < 1/2) : roundAway q = 0 := by
  unfold roundAway
  by_cases hq : 0 ≤ q
  · have hf : ⌊q⌋ = 0 := by
      rw [Int.floor_eq_iff]
      push_cast
      constructor <;> linarith
    rw [if_pos]
    · exact hf
    · rw [hf]
      push_cast
      linarith
  · push_neg at hq
    have hf : ⌊q⌋ = -1 := by
      rw [Int.floor_eq_iff]
      push_cast
      constructor <;> linarith
    have hc : ⌈q⌉ = 0 := by
      rw [Int.ceil_eq_iff]
      push_cast
      constructor <;> linarith
    rw [if_neg, if_pos]
    · exact hc
    · rw [hc]
      push_cast
      linarith
    · rw [hf]
      push_cast
      linarith

/-- Away from an exact half-sample tie, `round_away` is within half a unit
of its argument, strictly. -/
theorem sub_roundAway_bounds {q : ℚ} (h : q - ⌊q⌋ ≠ 1/2) :
    -(1/2) < q - roundAway q ∧ q - roundAway q < 1/2 := by
  unfold roundAway
  split_ifs with h1 h2 h3
  · have := Int.floor_le q
    constructor <;> linarith
  · have := Int.le_ceil q
    constructor <;> linarith
  all_goals
    exfalso
    push_neg at h1 h2
    have hc' : (⌈q⌉ : ℚ) ≤ (⌊q⌋ : ℚ) + 1 := by exact_mod_cast Int.ceil_le_floor_add_one q
    exact h (by linarith)

/-! ## Trim lemmas -/

theorem ltrimPad_starttime (fill s : ℚ) (tr : Trace) :
    (ltrimPad fill s tr).starttime =
      tr.starttime + (ltrimDelta ((s - tr.starttime) * tr.sampling_rate) : ℚ) / tr.sampling_rate := by
  simp only [ltrimPad]
  split_ifs <;> rfl

theorem ltrimPad_sampling_rate (fill s : ℚ) (tr : Trace) :
    (ltrimPad fill s tr).sampling_rate = tr.sampling_rate := by
  simp only [ltrimPad]
  split_ifs <;> rfl

/-- A right trim with `pad=True` that leaves a non-empty trace leaves the
start time and sampling rate alone and puts the number of samples at
`round_away((e - start) * fs) + 1`. -/
theorem rtrim_surviving (fill e : ℚ) (tr : Trace) (hfs : 0 < tr.sampling_rate)
    (hne : (rtrimPad fill e tr).npts ≠ 0) :
    (rtrimPad fill e tr).starttime = tr.starttime ∧
    ((rtrimPad fill e tr).npts : ℤ) = roundAway ((e - tr.starttime) * tr.sampling_rate) + 1 ∧
    (rtrimPad fill e tr).sampling_rate = tr.sampling_rate := by
  simp only [rtrimPad] at hne ⊢
  split_ifs at hne ⊢ with h1 h2 h3 h4
  · exact ⟨rfl, by omega, rfl⟩
  · refine ⟨rfl, ?_, rfl⟩
    simp only [Trace.npts, List.length_append, List.length_replicate]
    push_cast [Trace.npts] at h1 h2 ⊢
    omega
  · simp [Trace.npts] at hne
  · -- the `total = 1` special case, `e = starttime`
    refine ⟨rfl, ?_, rfl⟩
    have hD0 : roundAway ((e - tr.starttime) * tr.sampling_rate) = 0 := by
      rw [h4, sub_self, zero_mul]
      exact_mod_cast roundAway_intCast 0
    simp only [Trace.npts, List.length_take]
    rw [hD0] at h1 h2 ⊢
    push_cast [Trace.npts] at h1 h2 ⊢
    omega
  · refine ⟨rfl, ?_, rfl⟩
    push_neg at h3
    have hDnn : 0 ≤ roundAway ((e - tr.starttime) * tr.sampling_rate) :=
      roundAway_nonneg (mul_nonneg (by linarith) hfs.le)
    simp only [Trace.npts, List.length_take]
    push_cast [Trace.npts] at h1 h2 ⊢
    omega

/-- A right trim with `pad=True` toward an end at or after the current
start always leaves `round_away((e - start) * fs) + 1` samples. -/
theorem rtrim_npts_of_ge (fill e : ℚ) (tr : Trace) (hfs : 0 < tr.sampling_rate)
    (hge : tr.starttime ≤ e) :
    (rtrimPad fill e tr).starttime = tr.starttime ∧
    ((rtrimPad fill e tr).npts : ℤ) = roundAway ((e - tr.starttime) * tr.sampling_rate) + 1 ∧
    (rtrimPad fill e tr).sampling_rate = tr.sampling_rate := by
  have hDnn : 0 ≤ roundAway ((e - tr.starttime) * tr.sampling_rate) :=
    roundAway_nonneg (mul_nonneg (by linarith) hfs.le)
  simp only [rtrimPad]
  split_ifs with h1 h2 h3 h4
  · exact ⟨rfl, by omega, rfl⟩
  · refine ⟨rfl, ?_, rfl⟩
    simp only [Trace.npts, List.length_append, List.length_replicate]
    push_cast [Trace.npts] at h1 h2 ⊢
    omega
  · exact absurd hge (not_le.mpr h3)
  · refine ⟨rfl, ?_, rfl⟩
    have hD0 : roundAway ((e - tr.starttime) * tr.sampling_rate) = 0 := by
      rw [h4, sub_self, zero_mul]
      exact_mod_cast roundAway_intCast 0
    simp only [Trace.npts, List.length_take]
    rw [hD0] at h1 h2 ⊢
    push_cast [Trace.npts] at h1 h2 ⊢
    omega
  · refine ⟨rfl, ?_, rfl⟩
    simp only [Trace.npts, List.length_take]
    push_cast [Trace.npts] at h1 h2 ⊢
    omega

/-- Trimming to a window whose bounds lie on the trace's own sample grid
(`k` whole samples from the start, `m` whole samples wide) lands the start
exactly on `s` and leaves exactly `m + 1` samples, whatever the trace's
prior extent. -/
theorem trim_grid (fill s e : ℚ) (tr : Trace) (k : ℤ) (m : ℕ)
    (hfs : 0 < tr.sampling_rate)
    (hk : (s - tr.starttime) * tr.sampling_rate = k)
    (hm : (e - s) * tr.sampling_rate = m) :
    (Trace.trim fill s e tr).starttime = s ∧
    (Trace.trim fill s e tr).npts = m + 1 ∧
    (Trace.trim fill s e tr).sampling_rate = tr.sampling_rate := by
  have hfs' : tr.sampling_rate ≠ 0 := ne_of_gt hfs
  have hk' : (k : ℚ) / tr.sampling_rate = s - tr.starttime := by
    rw [← hk, mul_div_cancel_right₀ _ hfs']
  have hm' : (m : ℚ) / tr.sampling_rate = e - s := by
    rw [← hm, mul_div_cancel_right₀ _ hfs']
  have hstart1 : (ltrimPad fill s tr).starttime = s := by
    rw [ltrimPad_starttime, hk, ltrimDelta_eq]
    have hfk : ⌊(k : ℚ) + 1/2⌋ = k := by
      rw [add_comm, Int.floor_add_int]
      norm_num
    rw [hfk, hk']
    ring
  have hfs1 : (ltrimPad fill s tr).sampling_rate = tr.sampling_rate :=
    ltrimPad_sampling_rate fill s tr
  have hge : (ltrimPad fill s tr).starttime ≤ e := by
    rw [hstart1]
    have : 0 ≤ (m : ℚ) / tr.sampling_rate := div_nonneg (by positivity) hfs.le
    linarith [hm' ▸ this]
  obtain ⟨h2s, h2n, h2f⟩ :=
    rtrim_npts_of_ge fill e (ltrimPad fill s tr) (hfs1 ▸ hfs) hge
  have hD : roundAway ((e - (ltrimPad fill s tr).starttime) * (ltrimPad fill s tr).sampling_rate)
      = (m : ℤ) := by
    rw [hstart1, hfs1, hm]
    exact_mod_cast roundAway_intCast (m : ℤ)
  refine ⟨?_, ?_, ?_⟩
  · show (rtrimPad fill e (ltrimPad fill s tr)).starttime = s
    rw [h2s, hstart1]
  · show (rtrimPad fill e (ltrimPad fill s tr)).npts = m + 1
    rw [hD] at h2n
    exact_mod_cast h2n
  · show (rtrimPad fill e (ltrimPad fill s tr)).sampling_rate = tr.sampling_rate
    rw [h2f, hfs1]

/-- Re-trimming a non-empty already-trimmed trace to the same bounds is the
identity. -/
theorem trim_fix (fill s e : ℚ) (tr : Trace) (hfs : 0 < tr.sampling_rate)
    (hne : (Trace.trim fill s e tr).npts ≠ 0) :
    Trace.trim fill s e (Trace.trim fill s e tr) = Trace.trim fill s e tr := by
  have hfs' : tr.sampling_rate ≠ 0 := ne_of_gt hfs
  set d := (s - tr.starttime) * tr.sampling_rate with hd
  have h1s : (ltrimPad fill s tr).starttime =
      tr.starttime + (ltrimDelta d : ℚ) / tr.sampling_rate := ltrimPad_starttime fill s tr
  have h1f : (ltrimPad fill s tr).sampling_rate = tr.sampling_rate :=
    ltrimPad_sampling_rate fill s tr
  have hne' : (rtrimPad fill e (ltrimPad fill s tr)).npts ≠ 0 := hne
  obtain ⟨h2s, h2n, h2f⟩ :=
    rtrim_surviving fill e (ltrimPad fill s tr) (h1f ▸ hfs) hne'
  set tr2 := rtrimPad fill e (ltrimPad fill s tr) with htr2
  have h2f' : tr2.sampling_rate = tr.sampling_rate := by rw [h2f, h1f]
  have hd2 : (s - tr2.starttime) * tr2.sampling_rate = d - (⌊d + 1/2⌋ : ℚ) := by
    rw [h2s, h1s, h2f', ltrimDelta_eq, hd]
    field_simp
    ring
  have hdelta2 : ltrimDelta ((s - tr2.starttime) * tr2.sampling_rate) = 0 := by
    rw [hd2, ltrimDelta_eq]
    have hfl : (⌊d + 1/2⌋ : ℚ) ≤ d + 1/2 := Int.floor_le _
    have hfu : d + 1/2 < ⌊d + 1/2⌋ + 1 := Int.lt_floor_add_one _
    rw [Int.floor_eq_iff]
    push_cast
    constructor <;> linarith
  have hltrim2 : ltrimPad fill s tr2 = tr2 := by
    simp only [ltrimPad, hdelta2, if_pos]
    simp
  show rtrimPad fill e (ltrimPad fill s tr2) = tr2
  rw [hltrim2]
  have hcond : roundAway ((e - tr2.starttime) * tr2.sampling_rate) - (tr2.npts : ℤ) + 1 = 0 := by
    rw [h2s, h2f', ← h1f]
    omega
  simp only [rtrimPad]
  rw [if_pos hcond]

/-! ## Stream cut: unfolding lemma and idempotence -/

theorem Strm.cut_cons (s e fill : ℚ) (t0 : Trace) (rest : List Trace) :
    Strm.cut s e fill ⟨t0 :: rest⟩ =
      if t0.endtime + (roundAway ((e - t0.endtime) * t0.sampling_rate) : ℚ) / t0.sampling_rate <
          t0.starttime + (roundAway ((s - t0.starttime) * t0.sampling_rate) : ℚ) / t0.sampling_rate
      then .error .valueError
      else .ok ⟨((t0 :: rest).map (Trace.trim fill
          (t0.starttime + (roundAway ((s - t0.starttime) * t0.sampling_rate) : ℚ) / t0.sampling_rate)
          (t0.endtime + (roundAway ((e - t0.endtime) * t0.sampling_rate) : ℚ) / t0.sampling_rate))).filter
          (fun tr => tr.npts ≠ 0)⟩ := rfl

/-- C8 (amended): `cut(s, e)` is idempotent provided neither bound falls at
an exact half-sample tie of the first trace's grid (at a tie, obspy's
`round_away` snap alternates between the two neighbouring samples). -/
theorem c8_cut_idempotent (st : Strm) (s e fill : ℚ)
    (hfs : ∀ tr ∈ st.traces, 0 < tr.sampling_rate)
    (hs : ∀ t0 ∈ st.traces.head?,
      (s - t0.starttime) * t0.sampling_rate - ⌊(s - t0.starttime) * t0.sampling_rate⌋ ≠ 1/2)
    (he : ∀ t0 ∈ st.traces.head?,
      (e - t0.endtime) * t0.sampling_rate - ⌊(e - t0.endtime) * t0.sampling_rate⌋ ≠ 1/2) :
    (Strm.cut s e fill st).bind (Strm.cut s e fill) = Strm.cut s e fill st := by
  obtain ⟨traces⟩ := st
  rcases traces with _ | ⟨t0, rest⟩
  · rfl
  · have hfs0 : 0 < t0.sampling_rate := hfs t0 (List.mem_cons_self t0 rest)
    have hfs0' : t0.sampling_rate ≠ 0 := ne_of_gt hfs0
    have hs0 := hs t0 rfl
    have he0 := he t0 rfl
    set ds := (s - t0.starttime) * t0.sampling_rate with hds
    set de := (e - t0.endtime) * t0.sampling_rate with hde
    set s' := t0.starttime + (roundAway ds : ℚ) / t0.sampling_rate with hs'
    set e' := t0.endtime + (roundAway de : ℚ) / t0.sampling_rate with he'
    rw [Strm.cut_cons]
    by_cases herr : e' < s'
    · rw [if_pos herr]
      rfl
    · rw [if_neg herr]
      show Strm.cut s e fill
          ⟨((t0 :: rest).map (Trace.trim fill s' e')).filter (fun tr => tr.npts ≠ 0)⟩ =
        .ok ⟨((t0 :: rest).map (Trace.trim fill s' e')).filter (fun tr => tr.npts ≠ 0)⟩
      -- arithmetic facts about the snapped window
      have hk0 : (s' - t0.starttime) * t0.sampling_rate = ((roundAway ds : ℤ) : ℚ) := by
        rw [hs']
        field_simp
        ring
      have hMq : (e' - s') * t0.sampling_rate =
          ((t0.npts : ℚ) - 1) + (roundAway de : ℚ) - (roundAway ds : ℚ) := by
        rw [hs', he']
        unfold Trace.endtime
        field_simp
        ring
      have hM0 : (0 : ℚ) ≤ (e' - s') * t0.sampling_rate :=
        mul_nonneg (by linarith [not_lt.mp herr]) hfs0.le
      set MZ : ℤ := (t0.npts : ℤ) - 1 + roundAway de - roundAway ds with hMZdef
      have hMZ : (e' - s') * t0.sampling_rate = (MZ : ℚ) := by
        rw [hMq, hMZdef]
        push_cast
        ring
      have hMnn : 0 ≤ MZ := by
        rw [hMZ] at hM0
        exact_mod_cast hM0
      have hmz : (MZ : ℚ) = ((MZ.toNat : ℕ) : ℚ) := by
        exact_mod_cast (Int.toNat_of_nonneg hMnn).symm
      obtain ⟨ht0s, ht0n, ht0f⟩ := trim_grid fill s' e' t0 (roundAway ds) MZ.toNat hfs0 hk0
        (hMZ.trans hmz)
      have ht0ne : (Trace.trim fill s' e' t0).npts ≠ 0 := by
        rw [ht0n]
        omega
      -- the filtered list keeps the first trace at its head
      have hLcons : ((t0 :: rest).map (Trace.trim fill s' e')).filter (fun tr => tr.npts ≠ 0) =
          Trace.trim fill s' e' t0 ::
            (rest.map (Trace.trim fill s' e')).filter (fun tr => tr.npts ≠ 0) := by
        rw [List.map_cons, List.filter_cons_of_pos (by simpa using ht0ne)]
      rw [hLcons]
      -- the second snap reproduces the same window
      have hte : (Trace.trim fill s' e' t0).endtime = e' := by
        have h1 : e' - s' = ((MZ.toNat : ℕ) : ℚ) / t0.sampling_rate := by
          rw [eq_div_iff hfs0', ← hmz]
          exact hMZ
        have hesub : e' = s' + ((MZ.toNat : ℕ) : ℚ) / t0.sampling_rate := by linarith
        unfold Trace.endtime
        rw [ht0s, ht0f, ht0n, hesub]
        push_cast
        ring
      have hsnapS : (Trace.trim fill s' e' t0).starttime +
          (roundAway ((s - (Trace.trim fill s' e' t0).starttime) *
            (Trace.trim fill s' e' t0).sampling_rate) : ℚ) /
            (Trace.trim fill s' e' t0).sampling_rate = s' := by
        rw [ht0s, ht0f]
        have harg : (s - s') * t0.sampling_rate = ds - (roundAway ds : ℚ) := by
          rw [hs', hds]
          field_simp
          ring
        obtain ⟨hb1, hb2⟩ := sub_roundAway_bounds hs0
        rw [harg, roundAway_eq_zero hb1 hb2]
        simp
      have hsnapE : (Trace.trim fill s' e' t0).endtime +
          (roundAway ((e - (Trace.trim fill s' e' t0).endtime) *
            (Trace.trim fill s' e' t0).sampling_rate) : ℚ) /
            (Trace.trim fill s' e' t0).sampling_rate = e' := by
        rw [hte, ht0f]
        have harg : (e - e') * t0.sampling_rate = de - (roundAway de : ℚ) := by
          rw [he', hde]
          field_simp
          ring
        obtain ⟨hb1, hb2⟩ := sub_roundAway_bounds he0
        rw [harg, roundAway_eq_zero hb1 hb2]
        simp
      rw [Strm.cut_cons, hsnapS, hsnapE, if_neg herr]
      -- re-trimming every surviving trace is the identity
      have hfixall : ∀ tr1 ∈ Trace.trim fill s' e' t0 ::
          (rest.map (Trace.trim fill s' e')).filter (fun tr => tr.npts ≠ 0),
          Trace.trim fill s' e' tr1 = tr1 := by
        intro tr1 htr1
        rcases List.mem_cons.mp htr1 with h | h
        · subst h
          exact trim_fix fill s' e' t0 hfs0 ht0ne
        · have hp : tr1.npts ≠ 0 := by simpa using List.of_mem_filter h
          obtain ⟨tr, htr, rfl⟩ := List.mem_map.mp (List.mem_of_mem_filter h)
          exact trim_fix fill s' e' tr (hfs tr (List.mem_cons_of_mem t0 htr)) hp
      have hmapfix : (Trace.trim fill s' e' t0 ::
          (rest.map (Trace.trim fill s' e')).filter (fun tr => tr.npts ≠ 0)).map
            (Trace.trim fill s' e') =
          Trace.trim fill s' e' t0 ::
            (rest.map (Trace.trim fill s' e')).filter (fun tr => tr.npts ≠ 0) := by
        rw [List.map_congr_left hfixall, List.map_id']
      rw [hmapfix]
      congr 2
      rw [List.filter_eq_self]
      intro tr1 htr1
      rcases List.mem_cons.mp htr1 with h | h
      · subst h
        simpa using ht0ne
      · simpa using List.of_mem_filter h

/-- C8 counterexample: with the bounds at an exact half-sample offset of
the first trace's grid (`fs = 1 Hz`, start `0`, `s = 1/2`, `e = 5/2`),
cutting twice does not equal cutting once — the `round_away` snap
alternates between neighbouring samples. -/
theorem c8_counterexample :
    (Strm.cut (1/2) (5/2) 0 ⟨[⟨[1, 2, 3, 4], 0, 1⟩]⟩).bind (Strm.cut (1/2) (5/2) 0) ≠
      Strm.cut (1/2) (5/2) 0 ⟨[⟨[1, 2, 3, 4], 0, 1⟩]⟩ := by
  decide

theorem c8_witness :
    (Strm.cut (3/10) (23/10) 0 ⟨[⟨[1, 2, 3, 4], 0, 1⟩]⟩).bind (Strm.cut (3/10) (23/10) 0) =
      Strm.cut (3/10) (23/10) 0 ⟨[⟨[1, 2, 3, 4], 0, 1⟩]⟩ :=
  c8_cut_idempotent ⟨[⟨[1, 2, 3, 4], 0, 1⟩]⟩ (3/10) (23/10) 0 (by decide)
    (by intro t0 ht0; cases Option.some.inj ht0; decide)
    (by intro t0 ht0; cases Option.some.inj ht0; decide)

/-! ## C7: batch STFT on an empty collection -/

/-- C7: invoking the batch STFT on a collection with zero traces fails
(the `IndexError` raised by `self[0]` while resolving `fs`; the spec's
`EmptyCollection` condition) rather than returning a degenerate result. -/
theorem c7_stft_empty (seg step : ℚ) :
    Strm.stft seg step ⟨[]⟩ = .error .indexError := rfl

/-! ## C5: boundary-padding policy of the forward transforms -/

/-- C5 counterexample: the forward STFT inside `whiten` (called as
`stft(data, nperseg=fft_size)`) runs with scipy's own defaults — zero
boundary extension, input padding to whole windows, and one-sided
frequencies — contradicting the claim that every forward transform of the
core applies no padding and returns two-sided frequencies. -/
theorem c5_counterexample :
    (whitenStftParams 100).boundary = some "zeros" ∧
    (whitenStftParams 100).padded = true ∧
    (whitenStftParams 100).return_onesided = true :=
  ⟨rfl, rfl, rfl⟩

/-- C5 (amended): the batch STFT of `Stream.stft` resolves
`boundary=None, padded=False, return_onesided=False` (no padding,
two-sided), but the forward transform inside `whiten` keeps scipy's
defaults: `boundary='zeros'`, `padded=True`, `return_onesided=True`. -/
theorem c5_stft_padding_policy (t0 : Trace) (seg step : ℚ) (fftSize : ℤ) :
    (Strm.stftParams t0 seg step).boundary = none ∧
    (Strm.stftParams t0 seg step).padded = false ∧
    (Strm.stftParams t0 seg step).return_onesided = false ∧
    (whitenStftParams fftSize).boundary = some "zeros" ∧
    (whitenStftParams fftSize).padded = true ∧
    (whitenStftParams fftSize).return_onesided = true :=
  ⟨rfl, rfl, rfl, rfl, rfl, rfl⟩

/-! ## C4: whiten with an unrecognized method -/

theorem Strm.whitenRun_cons (seg : ℚ) (method : String) (smooth : ℕ) (t0 : Trace)
    (rest : List Trace) :
    Strm.whitenRun seg method smooth ⟨t0 :: rest⟩ =
      (let shaping : Option ShapingMethod :=
        if method = "onebit" then some .phase
        else if method = "smooth" then some .detrendSpectrum else none
       if t0.npts = 0 then ((⟨t0 :: rest⟩ : Strm), some .indexError)
       else
         match whitenLoop (pyInt (seg * t0.sampling_rate)) shaping (t0 :: rest) with
         | (done, some e) => ((⟨done⟩ : Strm), some e)
         | (done, none) =>
           match Strm.cut t0.starttime
               (t0.starttime + ((t0.npts : ℚ) - 1) / t0.sampling_rate) 0 ⟨done⟩ with
           | .error e => ((⟨done⟩ : Strm), some e)
           | .ok st' => (st', none)) := rfl

/-- C4 counterexample: on the EMPTY collection an unrecognized method does
not fail with `UnsupportedMethod` — `self[0]` raises `IndexError` first
(the stream is still untouched). -/
theorem c4_counterexample :
    Strm.whitenRun 2 "bogus" 11 ⟨[]⟩ = ((⟨[]⟩ : Strm), some PyErr.indexError) ∧
      PyErr.indexError ≠ PyErr.unsupportedMethod := by
  constructor
  · rfl
  · decide

/-- C4 (amended): on a collection whose first trace is non-empty and whose
forward transform accepts the resolved segment size, an unrecognized
`method` makes `whiten` fail with the unbound-shaping-function error (the
spec's `UnsupportedMethod`) raised at the first loop iteration, before any
trace's samples are modified: the stream comes back exactly unchanged. -/
theorem c4_whiten_unsupported_method (st : Strm) (seg : ℚ) (method : String) (smooth : ℕ)
    (t0 : Trace) (rest : List Trace)
    (hst : st.traces = t0 :: rest)
    (h0 : t0.npts ≠ 0)
    (hm1 : method ≠ "onebit") (hm2 : method ≠ "smooth")
    (hok : ∃ r, scipyStft t0.npts (whitenStftParams (pyInt (seg * t0.sampling_rate))) = .ok r) :
    Strm.whitenRun seg method smooth st = (st, some .unsupportedMethod) := by
  obtain ⟨r, hr⟩ := hok
  obtain ⟨traces⟩ := st
  change traces = t0 :: rest at hst
  subst hst
  have hwt : whitenTrace (pyInt (seg * t0.sampling_rate)) none t0 = .error .unsupportedMethod := by
    simp only [whitenTrace, hr]
  have hloop : whitenLoop (pyInt (seg * t0.sampling_rate)) none (t0 :: rest) =
      (t0 :: rest, some .unsupportedMethod) := by
    simp only [whitenLoop, hwt]
  rw [Strm.whitenRun_cons]
  simp only [if_neg hm1, if_neg hm2, if_neg h0, hloop]

theorem c4_witness :
    Strm.whitenRun 2 "bogus" 11 ⟨[⟨[1, 2, 3, 4], 0, 1⟩]⟩ =
      ((⟨[⟨[1, 2, 3, 4], 0, 1⟩]⟩ : Strm), some .unsupportedMethod) :=
  c4_whiten_unsupported_method ⟨[⟨[1, 2, 3, 4], 0, 1⟩]⟩ 2 "bogus" 11 ⟨[1, 2, 3, 4], 0, 1⟩ []
    rfl (by decide) (by decide) (by decide) ⟨_, rfl⟩

/-! ## Median and MAD lemmas -/

theorem insertionSort_map_div (l : List ℚ) {m : ℚ} (hm : 0 < m) :
    (l.map (fun x => x / m)).insertionSort (· ≤ ·) =
      (l.insertionSort (· ≤ ·)).map (fun x => x / m) := by
  refine List.eq_of_perm_of_sorted ?_ (List.sorted_insertionSort _ _) ?_
  · exact (List.perm_insertionSort _ _).trans ((List.perm_insertionSort _ l).symm.map _)
  · exact (List.sorted_insertionSort _ l).map _ (fun a b h => by
      exact (div_le_div_right hm).mpr h)

theorem getD_map_div (l : List ℚ) (i : ℕ) (m : ℚ) :
    (l.map (fun x => x / m)).getD i 0 = l.getD i 0 / m := by
  rw [List.getD_eq_getElem?_getD, List.getD_eq_getElem?_getD, List.getElem?_map]
  cases l[i]? with
  | none => simp [zero_div]
  | some x => rfl

theorem npMedian_map_div (l : List ℚ) {m : ℚ} (hm : 0 < m) :
    npMedian (l.map (fun x => x / m)) = npMedian l / m := by
  simp only [npMedian]
  rw [insertionSort_map_div l hm, List.length_map]
  by_cases h0 : l.length = 0
  · rw [if_pos h0, if_pos h0, zero_div]
  · rw [if_neg h0, if_neg h0]
    by_cases hodd : l.length % 2 = 1
    · rw [if_pos hodd, if_pos hodd, getD_map_div]
    · rw [if_neg hodd, if_neg hodd, getD_map_div, getD_map_div]
      ring

theorem mad_map_div (l : List ℚ) {m : ℚ} (hm : 0 < m) :
    mad (l.map (fun x => x / m)) = mad l / m := by
  unfold mad
  rw [npMedian_map_div l hm]
  have hmap : (l.map (fun x => x / m)).map (fun x => |x - npMedian l / m|) =
      (l.map (fun x => |x - npMedian l|)).map (fun x => x / m) := by
    rw [List.map_map, List.map_map]
    apply List.map_congr_left
    intro a _
    simp only [Function.comp]
    rw [div_sub_div_same, abs_div, abs_of_pos hm]
  rw [hmap, npMedian_map_div _ hm, div_right_comm]

theorem npMedian_nonneg {l : List ℚ} (h : ∀ x ∈ l, 0 ≤ x) : 0 ≤ npMedian l := by
  have hs : ∀ x ∈ l.insertionSort (· ≤ ·), 0 ≤ x := fun x hx =>
    h x ((List.perm_insertionSort _ l).subset hx)
  have hgetD : ∀ i : ℕ, 0 ≤ (l.insertionSort (· ≤ ·)).getD i 0 := by
    intro i
    rcases lt_or_ge i (l.insertionSort (· ≤ ·)).length with hi | hi
    · rw [List.getD_eq_getElem?_getD, List.getElem?_eq_getElem hi]
      exact hs _ (List.getElem_mem hi)
    · rw [List.getD_eq_getElem?_getD, List.getElem?_eq_none hi]
      exact le_refl 0
  simp only [npMedian]
  split_ifs
  · exact le_refl 0
  · exact hgetD _
  · exact div_nonneg (add_nonneg (hgetD _) (hgetD _)) (by norm_num)

theorem mad_nonneg (l : List ℚ) : 0 ≤ mad l := by
  unfold mad
  apply div_nonneg
  · refine npMedian_nonneg (fun x hx => ?_)
    obtain ⟨a, _, rfl⟩ := List.mem_map.mp hx
    exact abs_nonneg _
  · norm_num [madConst]

theorem sorted_replicate (k : ℕ) (c : ℚ) : List.Sorted (· ≤ ·) (List.replicate k c) :=
  List.pairwise_replicate.mpr (Or.inr (le_refl c))

theorem insertionSort_replicate (k : ℕ) (c : ℚ) :
    (List.replicate k c).insertionSort (· ≤ ·) = List.replicate k c :=
  List.eq_of_perm_of_sorted (List.perm_insertionSort _ _)
    (List.sorted_insertionSort _ _) (sorted_replicate k c)

theorem npMedian_replicate (k : ℕ) (c : ℚ) (hk : k ≠ 0) :
    npMedian (List.replicate k c) = c := by
  have hget : ∀ i : ℕ, i < k → (List.replicate k c).getD i 0 = c := by
    intro i hi
    rw [List.getD_eq_getElem?_getD, List.getElem?_replicate, if_pos hi]
    rfl
  simp only [npMedian]
  rw [insertionSort_replicate, List.length_replicate]
  rw [if_neg hk]
  by_cases hodd : k % 2 = 1
  · rw [if_pos hodd, hget _ (Nat.div_lt_self (Nat.pos_of_ne_zero hk) one_lt_two)]
  · rw [if_neg hodd, hget _ (Nat.div_lt_self (Nat.pos_of_ne_zero hk) one_lt_two),
      hget _ (by omega)]
    ring

theorem mad_replicate (k : ℕ) (c : ℚ) : mad (List.replicate k c) = 0 := by
  unfold mad
  rcases Nat.eq_zero_or_pos k with hk | hk
  · subst hk
    simp [npMedian]
  · rw [npMedian_replicate k c (Nat.pos_iff_ne_zero.mp hk), List.map_replicate,
      sub_self, abs_zero, npMedian_replicate k 0 (Nat.pos_iff_ne_zero.mp hk), zero_div]

/-! ## C2: MAD normalization -/

/-- C2: `demad` divides by the trace's MAD when it is positive — making the
output's MAD exactly 1 — and by `0 + 1e-5` when the MAD is zero; a constant
trace of value `5.0` becomes every-sample-exactly `500000.0`; and the
divisor in force is never zero (`mad` is non-negative, so the else-branch
divisor is exactly `1e-5`). -/
theorem c2_demad_scale (x : List ℚ) (t fs : ℚ) (k : ℕ) :
    (0 < mad x → mad (Trace.demad ⟨x, t, fs⟩).data = 1) ∧
    (mad x = 0 → (Trace.demad ⟨x, t, fs⟩).data = x.map (fun v => v / (0 + 1/100000))) ∧
    (Trace.demad ⟨List.replicate k 5, t, fs⟩).data = List.replicate k 500000 ∧
    (0 < mad x ∨ mad x + 1/100000 = 1/100000) := by
  refine ⟨?_, ?_, ?_, ?_⟩
  · intro hm
    simp only [Trace.demad, if_pos hm]
    rw [mad_map_div x hm, div_self (ne_of_gt hm)]
  · intro h0
    simp only [Trace.demad, h0]
    norm_num
  · have h0 : mad (List.replicate k (5 : ℚ)) = 0 := mad_replicate k 5
    simp only [Trace.demad, h0]
    norm_num [List.map_replicate]
  · by_cases hm : 0 < mad x
    · exact Or.inl hm
    · refine Or.inr ?_
      have : mad x = 0 := le_antisymm (not_lt.mp hm) (mad_nonneg x)
      rw [this, zero_add]

theorem c2_witness :
    0 < mad [(0 : ℚ), 2] ∧ mad (Trace.demad ⟨[(0 : ℚ), 2], 0, 1⟩).data = 1 :=
  ⟨by decide, (c2_demad_scale [0, 2] 0 1 0).1 (by decide)⟩

/-! ## C3: binarization -/

/-- C3: with the default `epsilon = 1e-10`, every binarized sample has
magnitude strictly below 1, and a binarized sample is zero exactly where
the corresponding input sample is zero. -/
theorem c3_binarize_bound (st : Strm) (i n : ℕ) (y : ℚ)
    (h : Strm.sampleAt (Strm.binarize binarizeEps st) i n = some y) :
    |y| < 1 ∧ (y = 0 ↔ Strm.sampleAt st i n = some 0) := by
  have heps : (0 : ℚ) < binarizeEps := by norm_num [binarizeEps]
  simp only [Strm.sampleAt, Strm.binarize, List.getElem?_map] at h
  cases hti : st.traces[i]? with
  | none =>
    rw [hti] at h
    simp at h
  | some tr =>
    rw [hti] at h
    simp only [Option.map_some', Trace.binarize, List.getElem?_map] at h
    cases htn : tr.data[n]? with
    | none =>
      rw [htn] at h
      simp at h
    | some x =>
      rw [htn] at h
      simp only [Option.map_some'] at h
      have hy : y = binarizeSample binarizeEps x := (Option.some.inj h).symm
      have hden : (0 : ℚ) < |x| + binarizeEps := by positivity
      constructor
      · rw [hy]
        unfold binarizeSample
        rw [abs_div, abs_of_pos hden, div_lt_one hden]
        linarith
      · rw [hy]
        unfold binarizeSample
        rw [div_eq_zero_iff]
        simp only [Strm.sampleAt, hti, htn]
        constructor
        · rintro (hx | hx)
          · rw [hx]
          · exact absurd hx (ne_of_gt hden)
        · intro hx
          exact Or.inl (Option.some.inj hx)

theorem c3_witness :
    |(30000000000 : ℚ) / 30000000001| < 1 ∧
      ((30000000000 : ℚ) / 30000000001 = 0 ↔
        Strm.sampleAt ⟨[⟨[0, 3, -2], 0, 1⟩]⟩ 0 1 = some 0) :=
  c3_binarize_bound ⟨[⟨[0, 3, -2], 0, 1⟩]⟩ 0 1 (30000000000 / 30000000001) (by decide)

/-! ## Batch STFT lemmas (C6, C9) -/

theorem mapM_scipyStft_const {l : List Trace} {P : StftParams} {n : ℕ} {r : StftResult}
    (hn : ∀ tr ∈ l, tr.npts = n) (hok : scipyStft n P = .ok r) :
    l.mapM (fun tr => scipyStft tr.npts P) = .ok (List.replicate l.length r) := by
  induction l with
  | nil => rfl
  | cons t ts ih =>
    rw [List.mapM_cons, hn t (List.mem_cons_self t ts), hok,
      ih (fun tr htr => hn tr (List.mem_cons_of_mem t htr))]
    simp only [List.length_cons, List.replicate_succ]
    rfl

theorem getLast?_replicate_succ {α : Type} (k : ℕ) (r : α) :
    (List.replicate (k + 1) r).getLast? = some r := by
  induction k with
  | zero => rfl
  | succ k ih =>
    rw [List.replicate_succ, List.replicate_succ, List.getLast?_cons_cons,
      ← List.replicate_succ]
    exact ih

theorem scipyStft_segTimes_length {n : ℕ} {P : StftParams} {r : StftResult}
    (h : scipyStft n P = .ok r) : r.segTimes.length = r.nseg := by
  simp only [scipyStft] at h
  split_ifs at h <;>
    first
      | exact Except.noConfusion h
      | (obtain rfl := Except.ok.inj h
         simp)

theorem Strm.stft_cons (seg step : ℚ) (t0 : Trace) (rest : List Trace) :
    Strm.stft seg step ⟨t0 :: rest⟩ =
      match (t0 :: rest).mapM (fun tr => scipyStft tr.npts (Strm.stftParams t0 seg step)) with
      | .error e => .error e
      | .ok results =>
        match results.getLast? with
        | none => .error .indexError
        | some rLast =>
          if t0.npts < 3 then .error .indexError
          else
            .ok ((rLast.segTimes.map (fun t => (t - rLast.segTimes.getD 0 0) / (24 * 3600) +
                dateFloat t0.starttime)) ++
              [(dateFloat (((t0.npts - 1 : ℕ) : ℚ) / t0.sampling_rate) + dateFloat t0.starttime) +
                ((dateFloat (((2 : ℕ) : ℚ) / t0.sampling_rate) + dateFloat t0.starttime) -
                 (dateFloat (((0 : ℕ) : ℚ) / t0.sampling_rate) + dateFloat t0.starttime)) / 2],
            rLast.freqs,
            results.map (fun r => (r.freqs.length, r.nseg))) := rfl

/-- Evaluation of the batch STFT on a homogeneous non-empty collection. -/
theorem stft_cons_eval (seg step : ℚ) (t0 : Trace) (rest : List Trace) (n : ℕ) (r : StftResult)
    (hn : ∀ tr ∈ t0 :: rest, tr.npts = n)
    (h3 : 3 ≤ n)
    (hok : scipyStft n (Strm.stftParams t0 seg step) = .ok r) :
    Strm.stft seg step ⟨t0 :: rest⟩ =
      .ok ((r.segTimes.map (fun t => (t - r.segTimes.getD 0 0) / (24 * 3600) +
            dateFloat t0.starttime)) ++
          [(dateFloat (((t0.npts - 1 : ℕ) : ℚ) / t0.sampling_rate) + dateFloat t0.starttime) +
            ((dateFloat (((2 : ℕ) : ℚ) / t0.sampling_rate) + dateFloat t0.starttime) -
             (dateFloat (((0 : ℕ) : ℚ) / t0.sampling_rate) + dateFloat t0.starttime)) / 2],
        r.freqs,
        List.replicate (t0 :: rest).length (r.freqs.length, r.nseg)) := by
  have hmapM := mapM_scipyStft_const hn hok
  have h0 : t0.npts = n := hn t0 (List.mem_cons_self t0 rest)
  rw [Strm.stft_cons, hmapM]
  have hlast : (List.replicate (t0 :: rest).length r).getLast? = some r := by
    rw [List.length_cons]
    exact getLast?_replicate_succ rest.length r
  simp only [hlast, List.map_replicate]
  rw [if_neg (by omega)]

/-- C6: the batch STFT over `N` equal-length traces returns a stacked
spectra array with first dimension exactly `N`, and a frequency axis whose
length is that of a single-trace forward call with the identical resolved
parameters. -/
theorem c6_stft_stacking (st : Strm) (seg step : ℚ) (t0 : Trace) (rest : List Trace) (n : ℕ)
    (r : StftResult)
    (hst : st.traces = t0 :: rest)
    (hn : ∀ tr ∈ st.traces, tr.npts = n)
    (h3 : 3 ≤ n)
    (hok : scipyStft n (Strm.stftParams t0 seg step) = .ok r) :
    ∃ T : List ℚ,
      Strm.stft seg step st =
        .ok (T, r.freqs, List.replicate st.traces.length (r.freqs.length, r.nseg)) := by
  obtain ⟨traces⟩ := st
  change traces = t0 :: rest at hst
  subst hst
  exact ⟨_, stft_cons_eval seg step t0 rest n r hn h3 hok⟩

theorem c6_witness : ∃ T : List ℚ,
    Strm.stft 8 (1/2) ⟨[⟨List.replicate 16 1, 0, 1⟩, ⟨List.replicate 16 2, 0, 1⟩]⟩ =
      .ok (T, [0, (1 : ℚ)/8, 1/4, 3/8, -(1/2), -(3/8), -(1/4), -(1/8)],
        List.replicate 2 (8, 3)) :=
  c6_stft_stacking ⟨[⟨List.replicate 16 1, 0, 1⟩, ⟨List.replicate 16 2, 0, 1⟩]⟩ 8 (1/2)
    ⟨List.replicate 16 1, 0, 1⟩ [⟨List.replicate 16 2, 0, 1⟩] 16
    ⟨[0, (1 : ℚ)/8, 1/4, 3/8, -(1/2), -(3/8), -(1/4), -(1/8)], [4, 8, 12], 3⟩
    rfl (by decide) (by norm_num) (by decide)

/-- C9 counterexample: on a 1-trace collection (fs 1 Hz, 16 samples,
segment 8 s, step 0.5 → window hop 4 s), the extra final time-axis entry
is `16/86400` — the trace end (sample 15) plus ONE SAMPLE PERIOD — and not
the end plus half a window hop (`15/86400 + 2/86400`). -/
theorem c9_counterexample :
    (Strm.stft 8 (1/2) ⟨[⟨List.replicate 16 1, 0, 1⟩]⟩).toOption.map
        (fun res => res.1.getLast?) = some (some ((16 : ℚ) / 86400)) ∧
      (16 : ℚ) / 86400 ≠ (15 : ℚ) / 86400 + (((8 : ℚ) / 2) / 2) / 86400 := by
  constructor
  · decide
  · decide

/-- C9 (amended): the window-start-time axis has exactly one more entry
than the number of spectral windows of each stacked spectrum; the extra
final element is the end time of the first trace plus ONE sample period,
in date floats (half of `self.times[2] - self.times[0]`, i.e. half of two
sample periods — not half a window step). -/
theorem c9_stft_time_axis (st : Strm) (seg step : ℚ) (t0 : Trace) (rest : List Trace) (n : ℕ)
    (r : StftResult) (T F : List ℚ) (S : List (ℕ × ℕ))
    (hst : st.traces = t0 :: rest)
    (hn : ∀ tr ∈ st.traces, tr.npts = n)
    (h3 : 3 ≤ n)
    (hok : scipyStft n (Strm.stftParams t0 seg step) = .ok r)
    (hres : Strm.stft seg step st = .ok (T, F, S)) :
    T.length = r.nseg + 1 ∧
    (∀ sh ∈ S, T.length = sh.2 + 1) ∧
    T.getLast? = some (dateFloat t0.starttime + ((n : ℚ) / t0.sampling_rate) / 86400) := by
  obtain ⟨traces⟩ := st
  change traces = t0 :: rest at hst
  subst hst
  have h0 : t0.npts = n := hn t0 (List.mem_cons_self t0 rest)
  have heval := stft_cons_eval seg step t0 rest n r hn h3 hok
  rw [hres] at heval
  have h' := Except.ok.inj heval
  have hT := congrArg Prod.fst h'
  have hS := congrArg (fun p => p.2.2) h'
  simp only at hT hS
  have hlen : T.length = r.nseg + 1 := by
    rw [hT]
    simp [List.length_append, List.length_map, scipyStft_segTimes_length hok]
  refine ⟨hlen, ?_, ?_⟩
  · intro sh hsh
    rw [hS] at hsh
    rw [List.eq_of_mem_replicate hsh]
    exact hlen
  · rw [hT, List.getLast?_concat]
    congr 1
    rw [h0]
    have hcast : ((n - 1 : ℕ) : ℚ) = (n : ℚ) - 1 := by
      push_cast [Nat.cast_sub (by omega : 1 ≤ n)]
      ring
    unfold dateFloat
    rw [hcast]
    push_cast
    ring

theorem c9_witness :
    ([0, (4 : ℚ)/86400, 8/86400, 16/86400] : List ℚ).length = 3 + 1 ∧
    (∀ sh ∈ [((8 : ℕ), (3 : ℕ))],
      ([0, (4 : ℚ)/86400, 8/86400, 16/86400] : List ℚ).length = sh.2 + 1) ∧
    ([0, (4 : ℚ)/86400, 8/86400, 16/86400] : List ℚ).getLast? =
      some (dateFloat 0 + ((16 : ℚ) / 1) / 86400) :=
  c9_stft_time_axis ⟨[⟨List.replicate 16 1, 0, 1⟩]⟩ 8 (1/2) ⟨List.replicate 16 1, 0, 1⟩ [] 16
    ⟨[0, (1 : ℚ)/8, 1/4, 3/8, -(1/2), -(3/8), -(1/4), -(1/8)], [4, 8, 12], 3⟩
    [0, (4 : ℚ)/86400, 8/86400, 16/86400]
    [0, (1 : ℚ)/8, 1/4, 3/8, -(1/2), -(3/8), -(1/4), -(1/8)]
    [(8, 3)]
    rfl (by decide) (by norm_num) (by decide) (by decide)

/-! ## Whitening lemmas (C1, C10) -/

theorem scipyStft_ok_of {n : ℕ} {P : StftParams}
    (h1 : 1 ≤ P.nperseg) (h2 : P.nperseg.toNat ≤ n)
    (h3 : P.noverlap = none) (h4 : P.nfft = none) :
    ∃ r, scipyStft n P = .ok r := by
  have hp : min P.nperseg.toNat n = P.nperseg.toNat := min_eq_left h2
  have hp1 : 1 ≤ P.nperseg.toNat := by omega
  simp only [scipyStft, h3, h4, hp, Option.getD_none]
  rw [if_neg (by omega), if_neg (by omega), if_neg (by omega)]
  exact ⟨_, rfl⟩

theorem whitenTrace_ok {fftSize : ℤ} (sh : ShapingMethod) (tr : Trace)
    (h1 : 1 ≤ fftSize) (h2 : fftSize.toNat ≤ tr.npts) :
    ∃ tr', whitenTrace fftSize (some sh) tr = .ok tr' ∧
      tr'.starttime = tr.starttime ∧ tr'.sampling_rate = tr.sampling_rate := by
  obtain ⟨r, hr⟩ :=
    scipyStft_ok_of (n := tr.npts) (P := whitenStftParams fftSize) h1 h2 rfl rfl
  simp only [whitenTrace, hr]
  rw [if_neg (by omega)]
  exact ⟨_, rfl, rfl, rfl⟩

theorem forall₂_mem_right {α β : Type} {R : α → β → Prop} :
    ∀ {l : List α} {l' : List β}, List.Forall₂ R l l' → ∀ b ∈ l', ∃ a ∈ l, R a b := by
  intro l l' h
  induction h with
  | nil =>
    intro b hb
    exact absurd hb (List.not_mem_nil b)
  | cons hR hF ih =>
    intro b hb
    rcases List.mem_cons.mp hb with rfl | hb
    · exact ⟨_, List.mem_cons_self _ _, hR⟩
    · obtain ⟨a, ha, har⟩ := ih b hb
      exact ⟨a, List.mem_cons_of_mem _ ha, har⟩

theorem whitenLoop_ok (fftSize : ℤ) (sh : ShapingMethod) :
    ∀ l : List Trace, (∀ tr ∈ l, 1 ≤ fftSize ∧ fftSize.toNat ≤ tr.npts) →
    ∃ l', whitenLoop fftSize (some sh) l = (l', none) ∧
      List.Forall₂ (fun a b => b.starttime = a.starttime ∧ b.sampling_rate = a.sampling_rate) l l'
  | [], _ => ⟨[], rfl, List.Forall₂.nil⟩
  | t :: ts, h => by
    obtain ⟨h1, h2⟩ := h t (List.mem_cons_self t ts)
    obtain ⟨tr', htr', hs', hf'⟩ := whitenTrace_ok sh t h1 h2
    obtain ⟨l', hl', hF⟩ :=
      whitenLoop_ok fftSize sh ts (fun tr htr => h tr (List.mem_cons_of_mem t htr))
    refine ⟨tr' :: l', ?_, List.Forall₂.cons ⟨hs', hf'⟩ hF⟩
    simp only [whitenLoop, htr', hl']

/-- Core evaluation of `Stream.whiten` on a collection whose traces share
the first trace's sampling rate and whose start-time offsets from the
first trace are whole numbers of samples: the run succeeds, no trace is
dropped, and every resulting trace carries the FIRST trace's original
start time and sample count. -/
theorem whitenRun_grid (st : Strm) (seg : ℚ) (method : String) (smooth : ℕ)
    (t0 : Trace) (rest : List Trace)
    (hst : st.traces = t0 :: rest)
    (hfs0 : 0 < t0.sampling_rate)
    (hfseq : ∀ tr ∈ st.traces, tr.sampling_rate = t0.sampling_rate)
    (hgrid : ∀ tr ∈ st.traces, ∃ k : ℤ, (t0.starttime - tr.starttime) * t0.sampling_rate = k)
    (hm : method = "onebit" ∨ method = "smooth")
    (hp1 : 1 ≤ pyInt (seg * t0.sampling_rate))
    (hpn : ∀ tr ∈ st.traces, (pyInt (seg * t0.sampling_rate)).toNat ≤ tr.npts) :
    (Strm.whitenRun seg method smooth st).2 = none ∧
    (Strm.whitenRun seg method smooth st).1.traces.length = st.traces.length ∧
    ∀ tr' ∈ (Strm.whitenRun seg method smooth st).1.traces,
      tr'.starttime = t0.starttime ∧ tr'.npts = t0.npts ∧
        tr'.sampling_rate = t0.sampling_rate := by
  obtain ⟨traces⟩ := st
  change traces = t0 :: rest at hst
  subst hst
  have hfs0' : t0.sampling_rate ≠ 0 := ne_of_gt hfs0
  have h0npts : t0.npts ≠ 0 := by
    have := hpn t0 (List.mem_cons_self t0 rest)
    omega
  obtain ⟨sh, hsh⟩ : ∃ sh : ShapingMethod,
      (if method = "onebit" then some ShapingMethod.phase
       else if method = "smooth" then some ShapingMethod.detrendSpectrum else none) = some sh := by
    rcases hm with h | h <;> subst h <;> simp
  obtain ⟨done, hloop, hF2⟩ :=
    whitenLoop_ok (pyInt (seg * t0.sampling_rate)) sh (t0 :: rest)
      (fun tr htr => ⟨hp1, hpn tr htr⟩)
  have hmemR := forall₂_mem_right hF2
  have hlenF := List.Forall₂.length_eq hF2
  cases hF2 with
  | cons hd0 hF2' =>
  rename_i d0 done'
  obtain ⟨hd0s, hd0f⟩ := hd0
  have hra0 : roundAway 0 = 0 := by simpa using roundAway_intCast 0
  -- the snapped cut window is exactly the first trace's original span
  have hsnapS : d0.starttime +
      (roundAway ((t0.starttime - d0.starttime) * d0.sampling_rate) : ℚ) / d0.sampling_rate =
        t0.starttime := by
    rw [hd0s, sub_self, zero_mul, hra0]
    simp
  have hJ : ((t0.starttime + ((t0.npts : ℚ) - 1) / t0.sampling_rate) - d0.endtime) *
      d0.sampling_rate = (((t0.npts : ℤ) - (d0.npts : ℤ) : ℤ) : ℚ) := by
    unfold Trace.endtime
    rw [hd0s, hd0f]
    push_cast
    field_simp
  have hsnapE : d0.endtime +
      (roundAway (((t0.starttime + ((t0.npts : ℚ) - 1) / t0.sampling_rate) - d0.endtime) *
        d0.sampling_rate) : ℚ) / d0.sampling_rate =
      t0.starttime + ((t0.npts : ℚ) - 1) / t0.sampling_rate := by
    rw [hJ, roundAway_intCast]
    unfold Trace.endtime
    rw [hd0s, hd0f]
    push_cast
    field_simp
    ring
  have h1n : (1 : ℚ) ≤ (t0.npts : ℚ) := by
    exact_mod_cast Nat.one_le_iff_ne_zero.mpr h0npts
  have herr : ¬ (t0.starttime + ((t0.npts : ℚ) - 1) / t0.sampling_rate < t0.starttime) := by
    have : 0 ≤ ((t0.npts : ℚ) - 1) / t0.sampling_rate :=
      div_nonneg (by linarith) hfs0.le
    linarith
  -- every trace trims back to the first trace's span
  have htrim : ∀ tr1 ∈ d0 :: done',
      (Trace.trim 0 t0.starttime (t0.starttime + ((t0.npts : ℚ) - 1) / t0.sampling_rate)
          tr1).starttime = t0.starttime ∧
      (Trace.trim 0 t0.starttime (t0.starttime + ((t0.npts : ℚ) - 1) / t0.sampling_rate)
          tr1).npts = t0.npts ∧
      (Trace.trim 0 t0.starttime (t0.starttime + ((t0.npts : ℚ) - 1) / t0.sampling_rate)
          tr1).sampling_rate = t0.sampling_rate := by
    intro tr1 htr1
    obtain ⟨tr, htr, h1s, h1f⟩ := hmemR tr1 htr1
    have hfs1 : tr1.sampling_rate = t0.sampling_rate := h1f.trans (hfseq tr htr)
    obtain ⟨k, hk⟩ := hgrid tr htr
    have hkk : (t0.starttime - tr1.starttime) * tr1.sampling_rate = (k : ℚ) := by
      rw [h1s, hfs1]
      exact hk
    have hmm' : ((t0.starttime + ((t0.npts : ℚ) - 1) / t0.sampling_rate) - t0.starttime) *
        tr1.sampling_rate = ((t0.npts - 1 : ℕ) : ℚ) := by
      rw [hfs1]
      have hcast : ((t0.npts - 1 : ℕ) : ℚ) = (t0.npts : ℚ) - 1 := by
        push_cast [Nat.cast_sub (Nat.one_le_iff_ne_zero.mpr h0npts)]
        ring
      rw [hcast]
      field_simp
      ring
    obtain ⟨ha, hb, hc⟩ := trim_grid 0 t0.starttime
      (t0.starttime + ((t0.npts : ℚ) - 1) / t0.sampling_rate) tr1 k (t0.npts - 1)
      (hfs1 ▸ hfs0) hkk hmm'
    refine ⟨ha, ?_, hc.trans hfs1⟩
    rw [hb]
    omega
  have hcut : Strm.cut t0.starttime (t0.starttime + ((t0.npts : ℚ) - 1) / t0.sampling_rate) 0
      ⟨d0 :: done'⟩ =
      .ok ⟨(d0 :: done').map (Trace.trim 0 t0.starttime
        (t0.starttime + ((t0.npts : ℚ) - 1) / t0.sampling_rate))⟩ := by
    rw [Strm.cut_cons, hsnapS, hsnapE, if_neg herr]
    congr 1
    rw [Strm.mk.injEq, List.filter_eq_self]
    intro x hx
    obtain ⟨tr1, htr1, rfl⟩ := List.mem_map.mp hx
    have := (htrim tr1 htr1).2.1
    simp only [this]
    simpa using h0npts
  have hrun : Strm.whitenRun seg method smooth ⟨t0 :: rest⟩ =
      (⟨(d0 :: done').map (Trace.trim 0 t0.starttime
        (t0.starttime + ((t0.npts : ℚ) - 1) / t0.sampling_rate))⟩, none) := by
    rw [Strm.whitenRun_cons]
    simp only [hsh, if_neg h0npts, hloop, hcut]
  rw [hrun]
  refine ⟨rfl, ?_, ?_⟩
  · simp only [List.length_map]
    exact hlenF.symm
  · intro tr' htr'
    obtain ⟨tr1, htr1, rfl⟩ := List.mem_map.mp htr'
    obtain ⟨ha, hb, hc⟩ := htrim tr1 htr1
    exact ⟨ha, hb, hc⟩

/-! ## C10: whiten derives the recut span from the first trace only -/

/-- C10 counterexample: a second trace whose start (`0.3 s`) is OFF the
sample grid relative to the first trace's start (`0`, fs 1 Hz).  After
`whiten`, obspy's nearest-sample trim leaves its start time at `0.3` — NOT
the first trace's original start time — so "every trace has the first
trace's original start time" fails (the snap is to each trace's own grid). -/
theorem c10_counterexample :
    (Strm.whitenRun 2 "onebit" 11
        ⟨[⟨[1, 2, 3, 4], 0, 1⟩, ⟨[5, 6, 7, 8], 3/10, 1⟩]⟩).2 = none ∧
    (Strm.whitenRun 2 "onebit" 11
        ⟨[⟨[1, 2, 3, 4], 0, 1⟩, ⟨[5, 6, 7, 8], 3/10, 1⟩]⟩).1.traces.map Trace.starttime =
      [0, 3/10] ∧
    (3 : ℚ) / 10 ≠ 0 := by
  refine ⟨by decide, by decide, by norm_num⟩

/-- C10 (amended): `whiten` reads its forward-transform segment size and
the recut span solely from the first trace; consequently, on a collection
whose traces share the first trace's sampling rate and whose start-time
offsets from it are whole numbers of samples (each trace's grid contains
the first trace's start), every trace of the whitened collection carries
the FIRST trace's original start time and sample count, regardless of the
other traces' own pre-whitening spans.  (Off-grid offsets are snapped to
each trace's own grid instead — see the counterexample.) -/
theorem c10_whiten_first_trace_span (st : Strm) (seg : ℚ) (method : String) (smooth : ℕ)
    (t0 : Trace) (rest : List Trace)
    (hst : st.traces = t0 :: rest)
    (hfs0 : 0 < t0.sampling_rate)
    (hfseq : ∀ tr ∈ st.traces, tr.sampling_rate = t0.sampling_rate)
    (hgrid : ∀ tr ∈ st.traces, ∃ k : ℤ, (t0.starttime - tr.starttime) * t0.sampling_rate = k)
    (hm : method = "onebit" ∨ method = "smooth")
    (hp1 : 1 ≤ pyInt (seg * t0.sampling_rate))
    (hpn : ∀ tr ∈ st.traces, (pyInt (seg * t0.sampling_rate)).toNat ≤ tr.npts) :
    (Strm.whitenRun seg method smooth st).2 = none ∧
    (Strm.whitenRun seg method smooth st).1.traces.length = st.traces.length ∧
    ∀ tr' ∈ (Strm.whitenRun seg method smooth st).1.traces,
      tr'.starttime = t0.starttime ∧ tr'.npts = t0.npts :=
  have h := whitenRun_grid st seg method smooth t0 rest hst hfs0 hfseq hgrid hm hp1 hpn
  ⟨h.1, h.2.1, fun tr' htr' => ⟨(h.2.2 tr' htr').1, (h.2.2 tr' htr').2.1⟩⟩

theorem c10_witness :
    (Strm.whitenRun 2 "onebit" 11
        ⟨[⟨[1, 2, 3, 4], 0, 1⟩, ⟨[5, 6, 7, 8], 1, 1⟩]⟩).2 = none ∧
    (Strm.whitenRun 2 "onebit" 11
        ⟨[⟨[1, 2, 3, 4], 0, 1⟩, ⟨[5, 6, 7, 8], 1, 1⟩]⟩).1.traces.length =
      (⟨[⟨[1, 2, 3, 4], 0, 1⟩, ⟨[5, 6, 7, 8], 1, 1⟩]⟩ : Strm).traces.length ∧
    ∀ tr' ∈ (Strm.whitenRun 2 "onebit" 11
        ⟨[⟨[1, 2, 3, 4], 0, 1⟩, ⟨[5, 6, 7, 8], 1, 1⟩]⟩).1.traces,
      tr'.starttime = (0 : ℚ) ∧ tr'.npts = 4 :=
  c10_whiten_first_trace_span ⟨[⟨[1, 2, 3, 4], 0, 1⟩, ⟨[5, 6, 7, 8], 1, 1⟩]⟩ 2 "onebit" 11
    ⟨[1, 2, 3, 4], 0, 1⟩ [⟨[5, 6, 7, 8], 1, 1⟩] rfl (by norm_num)
    (by intro tr htr
        rcases List.mem_cons.mp htr with rfl | htr2
        · rfl
        rcases List.mem_cons.mp htr2 with rfl | h
        · rfl
        · exact absurd h (List.not_mem_nil tr))
    (by intro tr htr
        rcases List.mem_cons.mp htr with rfl | htr2
        · exact ⟨0, by norm_num⟩
        rcases List.mem_cons.mp htr2 with rfl | h
        · exact ⟨-1, by norm_num⟩
        · exact absurd h (List.not_mem_nil tr))
    (Or.inl rfl) (by decide) (by decide)

/-! ## C1: whitening round-trip shape -/

/-- C1 counterexample: two traces of the same length and sampling rate but
different start times (`0` and `1`).  `whiten` succeeds, but the recut —
whose span comes from the first trace only — moves the second trace's
start time from `1` to `0`: its `start_time` is NOT unchanged. -/
theorem c1_counterexample :
    (Strm.whitenRun 2 "onebit" 11
        ⟨[⟨[1, 2, 3, 4], 0, 1⟩, ⟨[5, 6, 7, 8], 1, 1⟩]⟩).2 = none ∧
    (Strm.whitenRun 2 "onebit" 11
        ⟨[⟨[1, 2, 3, 4], 0, 1⟩, ⟨[5, 6, 7, 8], 1, 1⟩]⟩).1.traces.map Trace.starttime =
      [0, 0] ∧
    ((⟨[⟨[1, 2, 3, 4], 0, 1⟩, ⟨[5, 6, 7, 8], 1, 1⟩]⟩ : Strm).traces.map Trace.starttime =
      [0, 1]) ∧
    (0 : ℚ) ≠ 1 := by
  refine ⟨by decide, by decide, by decide, by norm_num⟩

/-- C1 (amended): on a HOMOGENEOUS collection — every trace shares the
first trace's start time and sampling rate and has length `L` — with a
segment size the forward transform accepts (`1 ≤ fft_size ≤ L`), `whiten`
succeeds and leaves every trace with exactly `L` samples and its original
`start_time` (the post-recut invariant).  On non-homogeneous collections
the recut imposes the first trace's span instead — see the
counterexample. -/
theorem c1_whiten_roundtrip_homogeneous (st : Strm) (seg : ℚ) (method : String) (smooth : ℕ)
    (t0 : Trace) (rest : List Trace) (L : ℕ)
    (hst : st.traces = t0 :: rest)
    (hfs0 : 0 < t0.sampling_rate)
    (hhom : ∀ tr ∈ st.traces, tr.starttime = t0.starttime ∧
      tr.sampling_rate = t0.sampling_rate ∧ tr.npts = L)
    (hm : method = "onebit" ∨ method = "smooth")
    (hp1 : 1 ≤ pyInt (seg * t0.sampling_rate))
    (hpn : (pyInt (seg * t0.sampling_rate)).toNat ≤ L) :
    (Strm.whitenRun seg method smooth st).2 = none ∧
    (Strm.whitenRun seg method smooth st).1.traces.length = st.traces.length ∧
    ∀ tr' ∈ (Strm.whitenRun seg method smooth st).1.traces,
      tr'.npts = L ∧ tr'.starttime = t0.starttime := by
  have hL0 : t0.npts = L := (hhom t0 (by rw [hst]; exact List.mem_cons_self t0 rest)).2.2
  obtain ⟨h1, h2, h3⟩ := whitenRun_grid st seg method smooth t0 rest hst hfs0
    (fun tr htr => (hhom tr htr).2.1)
    (fun tr htr => ⟨0, by rw [(hhom tr htr).1, sub_self, zero_mul, Int.cast_zero]⟩)
    hm hp1 (fun tr htr => by rw [(hhom tr htr).2.2]; exact hpn)
  exact ⟨h1, h2, fun tr' htr' =>
    ⟨by rw [(h3 tr' htr').2.1, hL0], (h3 tr' htr').1⟩⟩

theorem c1_witness :
    (Strm.whitenRun 2 "onebit" 11
        ⟨[⟨[1, 2, 3, 4], 0, 1⟩, ⟨[5, 6, 7, 8], 0, 1⟩]⟩).2 = none ∧
    (Strm.whitenRun 2 "onebit" 11
        ⟨[⟨[1, 2, 3, 4], 0, 1⟩, ⟨[5, 6, 7, 8], 0, 1⟩]⟩).1.traces.length =
      (⟨[⟨[1, 2, 3, 4], 0, 1⟩, ⟨[5, 6, 7, 8], 0, 1⟩]⟩ : Strm).traces.length ∧
    ∀ tr' ∈ (Strm.whitenRun 2 "onebit" 11
        ⟨[⟨[1, 2, 3, 4], 0, 1⟩, ⟨[5, 6, 7, 8], 0, 1⟩]⟩).1.traces,
      tr'.npts = 4 ∧ tr'.starttime = (0 : ℚ) :=
  c1_whiten_roundtrip_homogeneous ⟨[⟨[1, 2, 3, 4], 0, 1⟩, ⟨[5, 6, 7, 8], 0, 1⟩]⟩ 2 "onebit" 11
    ⟨[1, 2, 3, 4], 0, 1⟩ [⟨[5, 6, 7, 8], 0, 1⟩] 4 rfl (by norm_num)
    (by intro tr htr
        rcases List.mem_cons.mp htr with rfl | htr2
        · exact ⟨rfl, rfl, rfl⟩
        rcases List.mem_cons.mp htr2 with rfl | h
        · exact ⟨rfl, rfl, rfl⟩
        · exact absurd h (List.not_mem_nil tr))
    (Or.inl rfl) (by decide) (by decide)

end Covnet
